import Mathlib

/-!
Shallow embedding of the treego core (src/treego/main.go): the abortable
filesystem-tree builder `BuildTreeSafe`, the process-wide abort signal
(`abort` channel, `CloseOnce`, `ResetGlobalState`), and the two tree
consumers `SearchDFS` and `PrintTreeDFS`.

Modelling choices, all taken from the Go source:
* The filesystem visible to the builder is modelled by the inductive
  `FSNode`: at each path, `os.Stat` either fails (`statError`), reports a
  non-directory (`file`), or reports a directory whose `os.ReadDir` either
  fails (`badDir`) or succeeds with an ordered entry list (`dir`).  The
  base name returned by the directory listing and by `info.Name()` agree,
  as they do on a real filesystem.
* The goroutine fan-out of `BuildTreeSafe` is executed under the
  sequential left-to-right schedule, one admissible interleaving of the
  spawned goroutines: child branches run to completion in entry order, and
  the per-goroutine `select` on the `abort` channel becomes the initial
  abort check of the recursive call, whose effect (leave the slot nil) is
  identical.  The observed abort channel is threaded as a `Bool`
  (`true` = channel closed).
* Every filesystem operation the builder performs is recorded in an `ops`
  trace (`FSOp.stat` / `FSOp.readDir`), so that "no filesystem access"
  claims are statements about that trace.
* `filepath.Join` on an already-clean directory path and a plain entry
  name is path-separator concatenation, modelled by `joinPath`.
* Console output of `SearchDFS` / `PrintTreeDFS` is modelled as the
  returned list of printed lines, and a compiled `regexp.Regexp` as the
  `String → Bool` matcher it denotes.
* Go identifiers are kept except where the identifier itself cannot be
  used here; the rendering prefix argument of `PrintTreeDFS` is called
  `pre` for that reason.
-/

namespace Treego

/-- State of the process-wide abort machinery of main.go: `onceDone` says
whether the `sync.Once` guarding the close has fired, and `closedCount`
counts how many times `close(abort)` was actually executed (closing a Go
channel twice panics, so "exactly one transition" means this count reaches
exactly 1). -/
structure Signal where
  onceDone : Bool
  closedCount : Nat

/-- The freshly created global state: `var abort = make(chan struct{})`
together with an unfired `var once sync.Once`. -/
def Signal.initial : Signal := ⟨false, 0⟩

/-- Embedding of `CloseOnce` (main.go lines 80-85): `once.Do(func() { close(abort) })`. -/
def closeOnce (s : Signal) : Signal :=
  if s.onceDone then s else ⟨true, s.closedCount + 1⟩

/-- Whether the abort channel is observed closed — the `select`/`case <-abort`
poll used throughout `BuildTreeSafe`. -/
def Signal.isTripped (s : Signal) : Bool := decide (0 < s.closedCount)

/-- The signal states reachable in the Go program (`Signal.initial`, and the
tripped state after `CloseOnce`): the once guard has fired iff the channel
was closed, and the channel was closed at most once. -/
def Signal.wf (s : Signal) : Bool :=
  (s.onceDone == decide (s.closedCount = 1)) && decide (s.closedCount ≤ 1)

/-- Embedding of `ResetGlobalState` (main.go lines 133-137): a fresh
channel and a fresh `sync.Once`. -/
def resetGlobalState : Signal := Signal.initial

/-- Filesystem state of one path, as `BuildTreeSafe` can observe it through
`os.Stat` and `os.ReadDir`.  `name` is the entry's base name, reported both
by the parent's directory listing and by `info.Name()`. -/
inductive FSNode where
  | statError (name : String)
  | file (name : String)
  | badDir (name : String)
  | dir (name : String) (children : List FSNode)

/-- Base name of a filesystem entry. -/
def FSNode.name : FSNode → String
  | .statError n => n
  | .file n => n
  | .badDir n => n
  | .dir n _ => n

/-- Whether the failure sits at the root path itself: its own `os.Stat` or
`os.ReadDir` fails. -/
def FSNode.rootFatal : FSNode → Bool
  | .statError _ => true
  | .badDir _ => true
  | .file _ => false
  | .dir _ _ => false

mutual

/-- Whether a stat or listing failure occurs anywhere in the subtree. -/
def FSNode.hasFailure : FSNode → Bool
  | .statError _ => true
  | .badDir _ => true
  | .file _ => false
  | .dir _ cs => hasFailureList cs

/-- Whether any entry of the list has a failure somewhere in its subtree. -/
def hasFailureList : List FSNode → Bool
  | [] => false
  | c :: rest => c.hasFailure || hasFailureList rest

end

/-- The in-memory tree node built by `BuildTreeSafe` (struct `Node` of
main.go): base name, ordered children, directory flag, full path. -/
inductive Node where
  | mk (name : String) (children : List Node) (isDir : Bool) (path : String)

/-- The `Name` field. -/
def Node.name : Node → String
  | .mk n _ _ _ => n

/-- The `Children` field. -/
def Node.children : Node → List Node
  | .mk _ cs _ _ => cs

/-- The `IsDir` field. -/
def Node.isDir : Node → Bool
  | .mk _ _ d _ => d

/-- The `Path` field. -/
def Node.path : Node → String
  | .mk _ _ _ p => p

/-- One filesystem call performed by the builder. -/
inductive FSOp where
  | stat (path : String)
  | readDir (path : String)

/-- `filepath.Join(path, name)` for a clean directory path and a plain
entry name. -/
def joinPath (p n : String) : String := p ++ "/" ++ n

/-- What one `BuildTreeSafe` call produces: its return value, the abort
state when it returns, and the trace of filesystem calls it performed. -/
structure BuildResult where
  result : Option Node
  ab : Bool
  ops : List FSOp

/-- What the child fan-out of one directory produces: the `childNodes`
slice indexed by entry (a `nil` slot for a failed or aborted branch), the
abort state after the `wg.Wait()` join, and the trace of filesystem calls. -/
structure ChildrenResult where
  nodes : List (Option Node)
  ab : Bool
  ops : List FSOp

mutual

/-- Embedding of `BuildTreeSafe` (main.go lines 25-77) under the sequential
left-to-right schedule.  `ab` is whether the `abort` channel is closed when
the call starts; the initial `select` returns nil immediately when it is.
A stat failure, or a listing failure on a directory, performs `CloseOnce`
(abort becomes tripped) and returns nil.  A non-directory returns a leaf.
A directory spawns one branch per listed entry (here: runs them in entry
order, threading the abort state), joins, and keeps the non-nil results in
entry order. -/
def buildTreeSafe (fs : FSNode) (path : String) (ab : Bool) : BuildResult :=
  match ab with
  | true => ⟨none, true, []⟩
  | false =>
    match fs with
    | .statError _ => ⟨none, true, [FSOp.stat path]⟩
    | .file n => ⟨some (Node.mk n [] false path), false, [FSOp.stat path]⟩
    | .badDir _ => ⟨none, true, [FSOp.stat path, FSOp.readDir path]⟩
    | .dir n cs =>
      let r := buildChildren cs path false
      ⟨some (Node.mk n (r.nodes.filterMap id) true path), r.ab,
        FSOp.stat path :: FSOp.readDir path :: r.ops⟩

/-- Embedding of the per-entry goroutine loop of `BuildTreeSafe` (main.go
lines 55-68) under the sequential left-to-right schedule: each branch
builds `filepath.Join(path, e.Name())` starting from the current abort
state (the goroutine's own `select` on `abort` coincides with the initial
check of the recursive call), and its result is stored in the slot of
its entry index. -/
def buildChildren (cs : List FSNode) (parent : String) (ab : Bool) : ChildrenResult :=
  match cs with
  | [] => ⟨[], ab, []⟩
  | c :: rest =>
    let r := buildTreeSafe c (joinPath parent c.name) ab
    let r2 := buildChildren rest parent r.ab
    ⟨r.result :: r2.nodes, r2.ab, r.ops ++ r2.ops⟩

end

/-- `strings.Contains(hay, needle)` on the underlying character sequences:
some split of `hay` has `needle` as a leading block.  The empty needle is
a prefix of everything, so it is always contained. -/
def containsSub (hay needle : List Char) : Bool :=
  if needle.isPrefixOf hay then true
  else
    match hay with
    | [] => false
    | _ :: t => containsSub t needle

/-- `strings.Contains` on strings. -/
def strContains (s sub : String) : Bool := containsSub s.toList sub.toList

/-- `strings.ToLower` as used on the ASCII names of this tool: lowercase
every character.  (Defined directly over the character sequence so that it
computes by kernel reduction.) -/
def strToLower (s : String) : String := ⟨s.data.map Char.toLower⟩

mutual

/-- Embedding of `SearchDFS` (main.go lines 89-96), its printed lines
returned as a list: emit `node.Path` when the lowercased name contains the
lowercased query, then recurse into every child in order. -/
def searchDFS : Node → String → List String
  | .mk nm cs _ p, query =>
    (if strContains (strToLower nm) (strToLower query) then [p] else []) ++
      searchChildren cs query

/-- The `for _, child := range node.Children` loop of `SearchDFS`. -/
def searchChildren : List Node → String → List String
  | [], _ => []
  | c :: rest, query => searchDFS c query ++ searchChildren rest query

end

mutual

/-- Depth-first pre-order enumeration of a tree's nodes: the node itself,
then the preorders of its children in order.  Used to state what
`SearchDFS` visits. -/
def Node.preorder : Node → List Node
  | .mk nm cs d p => Node.mk nm cs d p :: preorderList cs

/-- Pre-order enumeration of a forest. -/
def preorderList : List Node → List Node
  | [] => []
  | c :: rest => c.preorder ++ preorderList rest

end

/-- The per-child filter of `PrintTreeDFS` (main.go lines 102-117), i.e.
the chain of `continue` tests applied to `child` before anything is
printed: a non-directory is dropped under `dirsOnly`; under a regex whose
match on the child's name fails, a directory is kept iff some immediate
child's name matches and a non-directory is dropped. -/
def keepChild (re : Option (String → Bool)) (dirsOnly : Bool) (c : Node) : Bool :=
  if dirsOnly && !c.isDir then false
  else
    match re with
    | none => true
    | some r =>
      if r c.name then true
      else if c.isDir then c.children.any (fun g => r g.name) else false

/-- Connector before a non-last child. -/
def midBranch : String := "├── "

/-- Connector before the last child. -/
def lastBranch : String := "└── "

/-- Continuation added to the prefix when recursing under a non-last child. -/
def midCont : String := "│   "

/-- Continuation added to the prefix when recursing under the last child. -/
def lastCont : String := "    "

mutual

/-- Embedding of `PrintTreeDFS` (main.go lines 99-131), its printed lines
returned as a list.  Only the node's children are rendered — the node
itself never is.  The `i`/`len(node.Children)` loop state is made explicit
in `printChildren`. -/
def printTreeDFS : Node → String → Option (String → Bool) → Bool → List String
  | .mk _ cs _ _, pre, re, dirsOnly => printChildren cs cs.length 0 pre re dirsOnly

/-- The `for i, child := range node.Children` loop of `PrintTreeDFS`:
`total` is `len(node.Children)` and `i` the index of the first remaining
child.  A child passing `keepChild` contributes its `childBlock`; a
filtered child contributes nothing but still advances the index. -/
def printChildren : List Node → Nat → Nat → String → Option (String → Bool) → Bool → List String
  | [], _, _, _, _, _ => []
  | c :: rest, total, i, pre, re, dirsOnly =>
    (if keepChild re dirsOnly c then childBlock c (i == total - 1) pre re dirsOnly
     else []) ++ printChildren rest total (i + 1) pre re dirsOnly

/-- What one kept child prints (main.go lines 119-129): its connector line
`pre + branch + child.Name` — `└── ` with a four-space continuation when
`last`, `├── ` with a `│   ` continuation otherwise — followed, only when
the child is a directory, by the recursive rendering of that child under
the extended prefix. -/
def childBlock (c : Node) (last : Bool) (pre : String) (re : Option (String → Bool)) (dirsOnly : Bool) : List String :=
  (pre ++ (if last then lastBranch else midBranch) ++ c.name) ::
    (if c.isDir then
      printTreeDFS c (pre ++ (if last then lastCont else midCont)) re dirsOnly
     else [])

end

/-- Structural induction over `Node` that hands the hypothesis to every
member of the child list. -/
theorem Node.childInduction (P : Node → Prop)
    (h : ∀ nm cs d p, (∀ c ∈ cs, P c) → P (Node.mk nm cs d p)) :
    ∀ n, P n
  | Node.mk nm cs d p => h nm cs d p (fun c hc => Node.childInduction P h c)
termination_by n => sizeOf n
decreasing_by
  have := List.sizeOf_lt_of_mem hc
  simp only [Node.mk.sizeOf_spec]
  omega

/-- Structural induction over `FSNode` that hands the hypothesis to every
member of the entry list of a directory. -/
theorem FSNode.entryInduction (P : FSNode → Prop)
    (hs : ∀ nm, P (FSNode.statError nm))
    (hf : ∀ nm, P (FSNode.file nm))
    (hb : ∀ nm, P (FSNode.badDir nm))
    (hd : ∀ nm cs, (∀ c ∈ cs, P c) → P (FSNode.dir nm cs)) :
    ∀ fs, P fs
  | FSNode.statError nm => hs nm
  | FSNode.file nm => hf nm
  | FSNode.badDir nm => hb nm
  | FSNode.dir nm cs => hd nm cs (fun c hc => FSNode.entryInduction P hs hf hb hd c)
termination_by fs => sizeOf fs
decreasing_by
  have := List.sizeOf_lt_of_mem hc
  simp only [FSNode.dir.sizeOf_spec]
  omega

/-! ### Helper lemmas about the builder -/

/-- A build invoked with the abort channel already closed does nothing:
no result, no filesystem call, signal still tripped. -/
theorem build_ab_true (fs : FSNode) (path : String) :
    buildTreeSafe fs path true = ⟨none, true, []⟩ := by
  cases fs <;> rfl

/-- Child branches started after the signal tripped all leave their slot
empty and keep the signal tripped. -/
theorem buildChildren_ab_true (cs : List FSNode) (p : String) :
    (buildChildren cs p true).ab = true ∧
      (buildChildren cs p true).nodes = List.replicate cs.length none := by
  induction cs with
  | nil => exact ⟨rfl, rfl⟩
  | cons c rest ih =>
    simp only [buildChildren, build_ab_true, List.length_cons, List.replicate_succ]
    exact ⟨ih.1, by rw [ih.2]⟩

/-- Any node a build returns carries the path the build was invoked on. -/
theorem build_result_path (fs : FSNode) (p : String) (ab : Bool) (n : Node)
    (h : (buildTreeSafe fs p ab).result = some n) : n.path = p := by
  cases ab
  · cases fs with
    | statError nm => simp [buildTreeSafe] at h
    | badDir nm => simp [buildTreeSafe] at h
    | file nm =>
      simp only [buildTreeSafe, Option.some.injEq] at h
      rw [← h]
      rfl
    | dir nm cs =>
      simp only [buildTreeSafe, Option.some.injEq] at h
      rw [← h]
      rfl
  · rw [build_ab_true] at h
    simp at h

/-- List-level part of `build_hasFailure_ab`: if some entry's subtree has a
failure then the joined fan-out ends with the signal tripped. -/
theorem buildChildren_hasFailure_ab (cs : List FSNode) :
    (∀ c ∈ cs, FSNode.hasFailure c = true →
      ∀ (p2 : String) (ab2 : Bool), (buildTreeSafe c p2 ab2).ab = true) →
    hasFailureList cs = true →
      ∀ (p : String) (ab : Bool), (buildChildren cs p ab).ab = true := by
  induction cs with
  | nil => intro _ h; simp [hasFailureList] at h
  | cons c rest ihr =>
    intro ih h p ab
    simp only [buildChildren]
    rcases Bool.or_eq_true_iff.mp (by simpa [hasFailureList] using h) with hc | hrest
    · rw [ih c (List.mem_cons_self c rest) hc (joinPath p c.name) ab]
      exact (buildChildren_ab_true rest p).1
    · exact ihr (fun c2 hc2 => ih c2 (List.mem_cons_of_mem _ hc2)) hrest p _

/-- A stat or listing failure anywhere in the subtree leaves the signal
tripped when the build of that subtree returns, whatever the starting
abort state. -/
theorem build_hasFailure_ab (fs : FSNode) :
    FSNode.hasFailure fs = true →
      ∀ (p : String) (ab : Bool), (buildTreeSafe fs p ab).ab = true := by
  induction fs using FSNode.entryInduction with
  | hs nm => intro _ p ab; cases ab <;> rfl
  | hf nm => intro h; simp [FSNode.hasFailure] at h
  | hb nm => intro _ p ab; cases ab <;> rfl
  | hd nm cs ih =>
    intro h p ab
    cases ab
    · simp only [buildTreeSafe]
      exact buildChildren_hasFailure_ab cs ih (by simpa [FSNode.hasFailure] using h) p false
    · rw [build_ab_true]

/-- The surviving children of a directory, read through their paths, form
an order-preserving selection of the listed entries' joined paths. -/
theorem buildChildren_path_sublist (cs : List FSNode) (p : String) :
    ∀ ab : Bool,
      List.Sublist (((buildChildren cs p ab).nodes.filterMap id).map Node.path)
        (cs.map (fun c => joinPath p c.name)) := by
  induction cs with
  | nil => intro ab; simp [buildChildren]
  | cons c rest ih =>
    intro ab
    simp only [buildChildren, List.map_cons]
    cases hres : (buildTreeSafe c (joinPath p c.name) ab).result with
    | none =>
      simp only [List.filterMap_cons, hres, id]
      exact List.Sublist.cons _ (ih _)
    | some n =>
      have hp : n.path = joinPath p c.name := build_result_path c _ ab n hres
      simp only [List.filterMap_cons, hres, id, List.map_cons, hp]
      exact List.Sublist.cons₂ _ (ih _)

/-- List-level part of `build_ok`: when no subtree of the list fails, the
fan-out leaves the signal open and every slot holds a node named after its
entry, in entry order. -/
theorem buildChildren_ok (cs : List FSNode) (p : String)
    (ih : ∀ c ∈ cs, FSNode.hasFailure c = false →
      ∀ p2 : String, (buildTreeSafe c p2 false).ab = false ∧
        ∃ n, (buildTreeSafe c p2 false).result = some n ∧ n.name = c.name)
    (h : hasFailureList cs = false) :
    (buildChildren cs p false).ab = false ∧
      ((buildChildren cs p false).nodes.filterMap id).map Node.name =
        cs.map FSNode.name := by
  induction cs with
  | nil => exact ⟨rfl, rfl⟩
  | cons c rest ihr =>
    have hsplit := Bool.or_eq_false_iff.mp (by simpa [hasFailureList] using h)
    obtain ⟨hab, n, hres, hname⟩ :=
      ih c (List.mem_cons_self c rest) hsplit.1 (joinPath p c.name)
    have hrest := ihr (fun c2 hc2 => ih c2 (List.mem_cons_of_mem _ hc2)) hsplit.2
    simp only [buildChildren, hab, hres, List.filterMap_cons, id, List.map_cons, hname]
    exact ⟨hrest.1, by rw [hrest.2]⟩

/-- A build of a failure-free subtree leaves the signal open and returns a
node named after the subtree's root entry. -/
theorem build_ok (fs : FSNode) :
    FSNode.hasFailure fs = false →
      ∀ p : String, (buildTreeSafe fs p false).ab = false ∧
        ∃ n, (buildTreeSafe fs p false).result = some n ∧ n.name = fs.name := by
  induction fs using FSNode.entryInduction with
  | hs nm => intro h; simp [FSNode.hasFailure] at h
  | hb nm => intro h; simp [FSNode.hasFailure] at h
  | hf nm => intro _ p; exact ⟨rfl, ⟨Node.mk nm [] false p, rfl, rfl⟩⟩
  | hd nm cs ih =>
    intro h p
    have hlist := buildChildren_ok cs p ih (by simpa [FSNode.hasFailure] using h)
    refine ⟨hlist.1, ⟨Node.mk nm ((buildChildren cs p false).nodes.filterMap id) true p, rfl, rfl⟩⟩

/-! ### Helper lemmas about the consumers -/

/-- `strings.Contains` with an empty needle is always true. -/
theorem containsSub_nil (hay : List Char) : containsSub hay [] = true := by
  unfold containsSub
  simp [List.isPrefixOf]

/-- List-level part of `searchDFS_eq`. -/
theorem searchChildren_eq (q : String) (cs : List Node)
    (ih : ∀ c ∈ cs, searchDFS c q =
      ((Node.preorder c).filter
        (fun m => strContains (strToLower m.name) (strToLower q))).map Node.path) :
    searchChildren cs q =
      ((preorderList cs).filter
        (fun m => strContains (strToLower m.name) (strToLower q))).map Node.path := by
  induction cs with
  | nil => rfl
  | cons c rest ihr =>
    simp only [searchChildren, preorderList, List.filter_append, List.map_append]
    rw [ih c (List.mem_cons_self c rest),
      ihr (fun c2 hc2 => ih c2 (List.mem_cons_of_mem _ hc2))]

/-- `SearchDFS` emits exactly the paths of the pre-order nodes whose
lowercased name contains the lowercased query, in pre-order. -/
theorem searchDFS_eq (n : Node) (q : String) :
    searchDFS n q =
      ((Node.preorder n).filter
        (fun m => strContains (strToLower m.name) (strToLower q))).map Node.path := by
  induction n using Node.childInduction with
  | h nm cs d p ih =>
    simp only [searchDFS, Node.preorder, List.filter_cons]
    rw [searchChildren_eq q cs ih]
    cases hq : strContains (strToLower nm) (strToLower q) <;>
      simp [Node.name, Node.path, hq]

/-- The loop of `PrintTreeDFS` renders, for the `j`-th entry of the
remaining children when it passes the filter, its block with the "last"
flag computed from the absolute index `i + j` against `total`; everything
else printed comes before or after that block. -/
theorem printChildren_pos (cs : List Node) (total : Nat) (pre : String)
    (re : Option (String → Bool)) (d : Bool) :
    ∀ (i j : Nat) (h : j < cs.length),
      keepChild re d (cs.get ⟨j, h⟩) = true →
      ∃ l1 l2, printChildren cs total i pre re d =
        l1 ++ childBlock (cs.get ⟨j, h⟩) (i + j == total - 1) pre re d ++ l2 := by
  induction cs with
  | nil => intro i j h; simp at h
  | cons c rest ih =>
    intro i j h hk
    cases j with
    | zero =>
      refine ⟨[], printChildren rest total (i + 1) pre re d, ?_⟩
      simp only [List.get] at hk ⊢
      simp only [printChildren, hk, if_true, Nat.add_zero, List.nil_append]
    | succ j2 =>
      simp only [List.get] at hk ⊢
      obtain ⟨l1, l2, heq⟩ := ih (i + 1) j2 (by simpa using h) hk
      rw [show i + 1 + j2 = i + (j2 + 1) by omega] at heq
      refine ⟨(if keepChild re d c then childBlock c (i == total - 1) pre re d else []) ++ l1,
        l2, ?_⟩
      simp only [printChildren, heq, List.append_assoc]

/-! ### The claims -/

/-- C2: `trip()` (CloseOnce) is idempotent — tripping twice equals tripping
once from any state; starting from the fresh signal, any positive number of
trips closes the underlying channel exactly once (one observable
transition, no double close); and from any reachable (well-formed) state a
trip leaves a well-formed, tripped state whose channel was closed exactly
once, so `isTripped()` is true afterwards. -/
theorem claim_C2 :
    (∀ s : Signal, closeOnce (closeOnce s) = closeOnce s) ∧
    (∀ n : Nat, closeOnce^[n + 1] Signal.initial = ⟨true, 1⟩) ∧
    (∀ s : Signal, s.wf = true →
      (closeOnce s).wf = true ∧ (closeOnce s).isTripped = true ∧
        (closeOnce s).closedCount = 1) := by
  refine ⟨?_, ?_, ?_⟩
  · intro s
    cases s with
    | mk od cc => cases od <;> simp [closeOnce]
  · intro n
    induction n with
    | zero => rfl
    | succ m ihm =>
      rw [Function.iterate_succ_apply', ihm]
      rfl
  · intro s hwf
    cases s with
    | mk od cc =>
      simp only [Signal.wf, Bool.and_eq_true, beq_iff_eq, decide_eq_true_eq] at hwf
      cases od
      · have : cc = 0 := by
          rcases hwf with ⟨h1, h2⟩
          simp only [Bool.false_eq, decide_eq_false_iff_not] at h1
          omega
        subst this
        exact ⟨rfl, rfl, rfl⟩
      · have : cc = 1 := by
          rcases hwf with ⟨h1, _⟩
          simpa using h1.symm
        subst this
        exact ⟨rfl, rfl, rfl⟩

/-- C2 witness: tripping the fresh signal once. -/
theorem claim_C2_witness :
    Signal.wf ⟨false, 0⟩ = true ∧
      ((closeOnce ⟨false, 0⟩).wf = true ∧ (closeOnce ⟨false, 0⟩).isTripped = true ∧
        (closeOnce ⟨false, 0⟩).closedCount = 1) :=
  ⟨by decide, claim_C2.2.2 ⟨false, 0⟩ (by decide)⟩

/-- C3: a build invoked while the signal is already tripped returns absent
immediately, performs no filesystem operation at all, and leaves the signal
tripped. -/
theorem claim_C3 (fs : FSNode) (path : String) :
    (buildTreeSafe fs path true).result = none ∧
      (buildTreeSafe fs path true).ops = [] ∧
      (buildTreeSafe fs path true).ab = true := by
  rw [build_ab_true]
  exact ⟨rfl, rfl, rfl⟩

/-- C4: a build of a path that stats as a non-directory returns a leaf node
carrying the stat's name, the queried path, a false directory flag and no
children; the only filesystem call made is that single stat — in
particular no directory listing of the path is attempted. -/
theorem claim_C4 (n path : String) :
    buildTreeSafe (FSNode.file n) path false =
      ⟨some (Node.mk n [] false path), false, [FSOp.stat path]⟩ ∧
      FSOp.readDir path ∉ (buildTreeSafe (FSNode.file n) path false).ops := by
  refine ⟨rfl, ?_⟩
  simp [buildTreeSafe]

/-- C1 counterexample: a filesystem whose root directory stats and lists
fine but whose single entry fails to stat.  The failure inside the subtree
trips the signal, yet `build` of the root returns a (partial) tree — the
failed child silently dropped — not absent, contrary to the claim.  (The
returned node is unconditional in the source: once the root's own stat and
listing succeed, `BuildTreeSafe` returns `node` under every goroutine
schedule.) -/
theorem claim_C1_counterexample :
    FSNode.hasFailure (FSNode.dir "r" [FSNode.statError "a"]) = true ∧
      (buildTreeSafe (FSNode.dir "r" [FSNode.statError "a"]) "r" false).result =
        some (Node.mk "r" [] true "r") ∧
      (buildTreeSafe (FSNode.dir "r" [FSNode.statError "a"]) "r" false).result ≠ none ∧
      (buildTreeSafe (FSNode.dir "r" [FSNode.statError "a"]) "r" false).ab = true := by
  refine ⟨rfl, rfl, ?_, rfl⟩
  intro h
  simp [buildTreeSafe, buildChildren] at h

/-- C1 amended: starting with an open signal, `build(root)` returns absent
exactly when the root path's own stat or listing fails; a failure anywhere
in the subtree still trips the process-wide signal (so concurrent and
future branches abort), but a failure strictly below the root leaves the
root's build returning a partial tree rather than absent. -/
theorem claim_C1 (fs : FSNode) (path : String) :
    ((buildTreeSafe fs path false).result = none ↔ fs.rootFatal = true) ∧
      (FSNode.hasFailure fs = true → (buildTreeSafe fs path false).ab = true) := by
  constructor
  · cases fs <;> simp [buildTreeSafe, FSNode.rootFatal]
  · intro h
    exact build_hasFailure_ab fs h path false

/-- C1 witness: the amended equivalence and trip-propagation at a concrete
failing subtree. -/
theorem claim_C1_witness :
    ((buildTreeSafe (FSNode.dir "r" [FSNode.statError "a"]) "r" false).result = none ↔
      FSNode.rootFatal (FSNode.dir "r" [FSNode.statError "a"]) = true) ∧
      (buildTreeSafe (FSNode.dir "r" [FSNode.statError "a"]) "r" false).ab = true :=
  ⟨(claim_C1 (FSNode.dir "r" [FSNode.statError "a"]) "r").1,
    (claim_C1 (FSNode.dir "r" [FSNode.statError "a"]) "r").2 rfl⟩

/-- C5: the node built for a directory whose listing succeeded has as
children precisely the non-nil entries of the per-entry result slots, in
slot (= listing) order; through their paths these children form an
order-preserving selection of the listed entries, and when no subtree
fails the children are exactly the listed entries, in listing order. -/
theorem claim_C5 (nm : String) (cs : List FSNode) (path : String) :
    ∃ node, (buildTreeSafe (FSNode.dir nm cs) path false).result = some node ∧
      node.children = (buildChildren cs path false).nodes.filterMap id ∧
      List.Sublist (node.children.map Node.path)
        (cs.map (fun c => joinPath path c.name)) ∧
      (hasFailureList cs = false →
        node.children.map Node.name = cs.map FSNode.name) := by
  refine ⟨Node.mk nm ((buildChildren cs path false).nodes.filterMap id) true path,
    rfl, rfl, ?_, ?_⟩
  · exact buildChildren_path_sublist cs path false
  · intro h
    exact (buildChildren_ok cs path (fun c _ hc p2 => build_ok c hc p2) h).2

/-- C5 witness: a two-entry directory with no failures builds both
children, in listing order. -/
theorem claim_C5_witness :
    ∃ node,
      (buildTreeSafe (FSNode.dir "r" [FSNode.file "b", FSNode.file "a"]) "p" false).result =
        some node ∧
      node.children.map Node.name = ["b", "a"] := by
  obtain ⟨node, h1, _, _, h4⟩ := claim_C5 "r" [FSNode.file "b", FSNode.file "a"] "p"
  exact ⟨node, h1, by rw [h4 rfl]; rfl⟩

/-- C9 counterexample: after a build invocation that tripped the signal (a
failing stat), a fresh top-level build of a perfectly healthy path starts
with the signal still tripped and returns absent — `BuildTreeSafe` does
not reset the signal at the start of an invocation (only the separate
`ResetGlobalState` does), contrary to the claim. -/
theorem claim_C9_counterexample :
    (buildTreeSafe (FSNode.statError "x") "q" false).ab = true ∧
      (buildTreeSafe (FSNode.file "a") "p"
        ((buildTreeSafe (FSNode.statError "x") "q" false).ab)).result = none ∧
      (buildTreeSafe (FSNode.file "a") "p" false).result =
        some (Node.mk "a" [] false "p") :=
  ⟨rfl, rfl, rfl⟩

/-- C9 amended: the builder never resets the signal — a top-level build
that begins with the signal tripped returns absent at once, touching
nothing; the signal is monotonic within and across builds (a build started
tripped ends tripped, and all its branches leave their slots empty); the
open state is restored only by the explicit `ResetGlobalState`, after
which a build behaves exactly like a fresh one. -/
theorem claim_C9 (fs : FSNode) (path : String) :
    (buildTreeSafe fs path true).ab = true ∧
      (buildTreeSafe fs path true).result = none ∧
      (∀ cs : List FSNode, (buildChildren cs path true).ab = true ∧
        (buildChildren cs path true).nodes.filterMap id = []) ∧
      Signal.isTripped resetGlobalState = false ∧
      buildTreeSafe fs path resetGlobalState.isTripped =
        buildTreeSafe fs path false := by
  rw [build_ab_true]
  refine ⟨rfl, rfl, ?_, rfl, rfl⟩
  intro cs
  refine ⟨(buildChildren_ab_true cs path).1, ?_⟩
  rw [(buildChildren_ab_true cs path).2]
  simp

/-- C6: on any tree, `search` emits exactly the paths of the nodes whose
name case-insensitively contains the query, visiting every node in
depth-first pre-order (the emitted lines are the filter of the full
pre-order traversal, so ancestors' matches or misses never prune the
visit), and the empty query emits every node's path. -/
theorem claim_C6 (n : Node) (q : String) :
    searchDFS n q =
      ((Node.preorder n).filter
        (fun m => strContains (strToLower m.name) (strToLower q))).map Node.path ∧
      searchDFS n "" = (Node.preorder n).map Node.path := by
  refine ⟨searchDFS_eq n q, ?_⟩
  rw [searchDFS_eq n "", List.filter_eq_self.mpr]
  intro m _
  exact containsSub_nil (strToLower m.name).toList

/-- C7: under a supplied regex, a child whose name does not match is kept
iff it is a directory one of whose immediate children's names matches (a
one-level lookahead — the condition reads nothing deeper than the child's
immediate children); a non-matching non-directory child is always skipped.
Kept is equivalent to being rendered: a filtered child prints nothing, a
kept child prints at least its own line. -/
theorem claim_C7 (r : String → Bool) (d : Bool) (c : Node) (nm pp pre : String) (dd : Bool)
    (h : r c.name = false) :
    (keepChild (some r) d c = true ↔
      (c.isDir = true ∧ c.children.any (fun g => r g.name) = true)) ∧
      (keepChild (some r) d c = false →
        printTreeDFS (Node.mk nm [c] dd pp) pre (some r) d = []) ∧
      (keepChild (some r) d c = true →
        printTreeDFS (Node.mk nm [c] dd pp) pre (some r) d ≠ []) := by
  refine ⟨?_, ?_, ?_⟩
  · cases c with
    | mk cn ccs cd cp =>
      simp only [Node.name] at h
      cases cd <;> cases d <;>
        simp [keepChild, h, Node.isDir, Node.children, Node.name]
  · intro hk
    simp [printTreeDFS, printChildren, hk]
  · intro hk
    simp [printTreeDFS, printChildren, childBlock, hk]

/-- C7 witness: a directory named `sub`, not matching the matcher of
`x.go`, is kept because its immediate child `x.go` matches. -/
theorem claim_C7_witness :
    ((fun s => s == "x.go") (Node.name (Node.mk "sub" [Node.mk "x.go" [] false "p2"] true "p1")) = false) ∧
      (keepChild (some fun s => s == "x.go") false
          (Node.mk "sub" [Node.mk "x.go" [] false "p2"] true "p1") = true ↔
        ((Node.mk "sub" [Node.mk "x.go" [] false "p2"] true "p1").isDir = true ∧
          (Node.mk "sub" [Node.mk "x.go" [] false "p2"] true "p1").children.any
            (fun g => (fun s => s == "x.go") g.name) = true)) :=
  ⟨by decide,
    (claim_C7 (fun s => s == "x.go") false
      (Node.mk "sub" [Node.mk "x.go" [] false "p2"] true "p1") "r" "pr" "" true
      (by decide)).1⟩

/-- C8: `printTree` renders only the children of the node it is called on
(second conjunct: it is exactly the child loop, so the node's own name,
flag and path are never consulted); a kept child at original index `j` of
the unfiltered sibling list contributes exactly its block — the connector
line built from `pre`, the last-entry glyph iff `j` is the final index of
the unfiltered list (filtered siblings still occupy their indices), and
the recursive rendering under the four-column extended prefix only when
the child is a directory (`childBlock` recurses for directories only). -/
theorem claim_C8 (nm : String) (cs : List Node) (dd : Bool) (pp pre : String)
    (re : Option (String → Bool)) (d : Bool) (j : Nat) (h : j < cs.length)
    (hk : keepChild re d (cs.get ⟨j, h⟩) = true) :
    (∃ l1 l2, printTreeDFS (Node.mk nm cs dd pp) pre re d =
      l1 ++ childBlock (cs.get ⟨j, h⟩) (j == cs.length - 1) pre re d ++ l2) ∧
      printTreeDFS (Node.mk nm cs dd pp) pre re d =
        printChildren cs cs.length 0 pre re d := by
  have heq : printTreeDFS (Node.mk nm cs dd pp) pre re d =
      printChildren cs cs.length 0 pre re d := by
    simp [printTreeDFS]
  refine ⟨?_, heq⟩
  rw [heq]
  simpa using printChildren_pos cs cs.length pre re d 0 j h hk

/-- C8 witness: with two siblings of which only the first is kept, the
kept first child is rendered with the middle connector — the filtered-out
last sibling still consumes the final position. -/
theorem claim_C8_witness :
    ∃ l1 l2,
      printTreeDFS
          (Node.mk "r" [Node.mk "a" [] false "pa", Node.mk "b" [] false "pb"] true "pr")
          "" (some fun s => s == "a") false =
        l1 ++ childBlock (Node.mk "a" [] false "pa") false "" (some fun s => s == "a") false ++ l2 :=
  (claim_C8 "r" [Node.mk "a" [] false "pa", Node.mk "b" [] false "pb"] true "pr" ""
    (some fun s => s == "a") false 0 (by simp) (by decide)).1

/-- C10: the one-level lookahead of the regex filter inspects all immediate
children, non-directories included — any matching immediate child, even a
file, keeps its non-matching directory parent under `dirsOnly`; concretely,
a tree whose directory `sub` only contains the file `main.go` prints
exactly the `sub` line under `dirsOnly` with the `main.go` matcher: the
directory is shown solely because of the file's match, while the file
itself is suppressed and appears on no output line. -/
theorem claim_C10 :
    (∀ (r : String → Bool) (c g : Node), g ∈ c.children → c.isDir = true →
      g.isDir = false → r g.name = true → keepChild (some r) true c = true) ∧
      printTreeDFS
          (Node.mk "root" [Node.mk "sub" [Node.mk "main.go" [] false "/r/sub/main.go"] true "/r/sub"] true "/r")
          "" (some fun s => s == "main.go") true = ["└── sub"] ∧
      (∀ line ∈ printTreeDFS
          (Node.mk "root" [Node.mk "sub" [Node.mk "main.go" [] false "/r/sub/main.go"] true "/r/sub"] true "/r")
          "" (some fun s => s == "main.go") true,
        strContains line "main.go" = false) := by
  have hout : printTreeDFS
      (Node.mk "root" [Node.mk "sub" [Node.mk "main.go" [] false "/r/sub/main.go"] true "/r/sub"] true "/r")
      "" (some fun s => s == "main.go") true = ["└── sub"] := by
    simp [printTreeDFS, printChildren, childBlock, keepChild,
      Node.isDir, Node.name, Node.children, lastBranch, lastCont]
  refine ⟨?_, hout, ?_⟩
  · intro r c g hg hdir hgd hr
    cases c with
    | mk cn ccs cd cp =>
      simp only [Node.isDir] at hdir
      subst hdir
      simp only [Node.children] at hg
      cases hrc : r cn
      · simp only [keepChild, Node.isDir, Node.name, Node.children, hrc,
          Bool.not_true, Bool.and_false, if_false, if_true]
        simp only [Bool.false_eq_true, if_false, if_true]
        exact List.any_eq_true.mpr ⟨g, hg, hr⟩
      · simp [keepChild, Node.isDir, Node.name, hrc]
  · intro line hl
    rw [hout] at hl
    simp only [List.mem_singleton] at hl
    subst hl
    decide

/-- C10 witness: the lookahead keeps the `sub` directory because of its
matching file child. -/
theorem claim_C10_witness :
    keepChild (some fun s => s == "main.go") true
      (Node.mk "sub" [Node.mk "main.go" [] false "/r/sub/main.go"] true "/r/sub") = true :=
  claim_C10.1 (fun s => s == "main.go")
    (Node.mk "sub" [Node.mk "main.go" [] false "/r/sub/main.go"] true "/r/sub")
    (Node.mk "main.go" [] false "/r/sub/main.go")
    (by simp [Node.children]) rfl rfl (by decide)

end Treego
